import Mathlib

/-!
Verification of the Royal Game of Ur rules engine (ur_gui.py).

The pure game logic of the class RoyalGameOfUr is embedded as executable
Lean definitions over Int positions: -1 is off-board, 0..13 on track,
14 borne off.  The turn-resolution logic of the pygame main loop
(the await_dest and await_quiz handlers) is embedded as pure functions
on the game state together with a small UI-state tag.
-/

/-- Track length, class constant TRACK_LEN = 14. -/
def TRACK_LEN : Int := 14

/-- Rosette slots, class constant ROSETTES = {3, 7, 13}. -/
def ROSETTES (n : Int) : Bool := decide (n = 3 ∨ n = 7 ∨ n = 13)

/-- Shared slots, class constant SHARED = set(range(4, 12)). -/
def SHARED (n : Int) : Bool := decide (4 ≤ n ∧ n ≤ 11)

/-- Capture slots, class constant CAPTURE_SQUARES = SHARED - ROSETTES. -/
def CAPTURE_SQUARES (n : Int) : Bool := SHARED n && !(ROSETTES n)

/-- Quiz-gated rosettes, module constant QUIZ_TRIGGER_ROSETTES = {3, 7}. -/
def QUIZ_TRIGGER_ROSETTES (n : Int) : Bool := decide (n = 3 ∨ n = 7)

/-- A position is on the track when 0 <= pos < TRACK_LEN; the guards
`0 <= pos < self.TRACK_LEN` used throughout legal_moves. -/
def onTrack (pos : Int) : Bool := decide (0 ≤ pos ∧ pos < TRACK_LEN)

/-- Membership of x in the set comprehension
`{pos for pos in l if 0 <= pos < TRACK_LEN}` (own_set / opp_set). -/
def inSet (l : List Int) (x : Int) : Bool := onTrack x && decide (x ∈ l)

/-- A legal-move record, the tuple
(piece_index or None, newpos, extra_turn, captured_piece_index). -/
structure Move where
  piece : Option Nat
  newpos : Int
  extra : Bool
  captured : Option Nat
deriving DecidableEq, Repr

/-- The helper landing_info(newpos) inside legal_moves: returns
(allowed, captured_idx).  Own pieces block; on shared squares an
opponent piece is captured on capture squares and blocks landing on the
shared rosette; otherwise landing is free.  The captured index is the
first opponent index at newpos (the dict opp_index_by_pos keeps the
first index per position). -/
def landing_info (own opp : List Int) (newpos : Int) : Bool × Option Nat :=
  if inSet own newpos then (false, none)
  else if SHARED newpos && inSet opp newpos then
    (if CAPTURE_SQUARES newpos then
      (true, some (opp.findIdx (fun x => x == newpos)))
    else (false, none))
  else (true, none)

/-- The body of the `for i, pos in enumerate(own_positions)` loop of
legal_moves, for one index i: skip off-track pieces, skip overshoots,
bear off at exactly TRACK_LEN, otherwise consult landing_info and tag
the move with the rosette bonus. -/
def pieceMoves (own opp : List Int) (roll : Int) (i : Nat) : List Move :=
  if onTrack (own.getD i 0) then
    (if TRACK_LEN < own.getD i 0 + roll then []
     else if own.getD i 0 + roll = TRACK_LEN then
       [⟨some i, own.getD i 0 + roll, false, none⟩]
     else if (landing_info own opp (own.getD i 0 + roll)).1 then
       [⟨some i, own.getD i 0 + roll, ROSETTES (own.getD i 0 + roll),
         (landing_info own opp (own.getD i 0 + roll)).2⟩]
     else [])
  else []

/-- The entry block of legal_moves: if some piece is off-board, try to
enter at entry_pos = roll - 1 when it is on the track and landing_info
allows it. -/
def entryMoves (own opp : List Int) (roll : Int) : List Move :=
  if (-1 : Int) ∈ own then
    (if onTrack (roll - 1) then
      (if (landing_info own opp (roll - 1)).1 then
        [⟨none, roll - 1, ROSETTES (roll - 1), (landing_info own opp (roll - 1)).2⟩]
      else [])
    else [])
  else []

/-- legal_moves over the two extracted position lists: empty on a zero
roll, else the moves of the on-track pieces in index order followed by
the entry move. -/
def legalMovesL (own opp : List Int) (roll : Int) : List Move :=
  if roll = 0 then []
  else ((List.range own.length).flatMap (pieceMoves own opp roll)) ++ entryMoves own opp roll

/-- The mutable game object: positions[player][piece] together with
current_player. -/
structure RoyalGameOfUr where
  positions : List (List Int)
  current_player : Nat
deriving DecidableEq, Repr

namespace RoyalGameOfUr

/-- self.positions[player]. -/
def posOf (g : RoyalGameOfUr) (p : Nat) : List Int := g.positions.getD p []

/-- Method legal_moves(player, roll). -/
def legal_moves (g : RoyalGameOfUr) (player : Nat) (roll : Int) : List Move :=
  legalMovesL (g.posOf player) (g.posOf (1 - player)) roll

/-- Method apply_move(player, move): reset a captured opponent piece to
-1, then place the moved piece (for an entry move, the first own piece
whose position is -1, `self.positions[player].index(-1)`), and report
the extra flag. -/
def apply_move (g : RoyalGameOfUr) (player : Nat) (m : Move) : RoyalGameOfUr × Bool :=
  let ps1 :=
    match m.captured with
    | some ci => g.positions.set (1 - player) ((g.positions.getD (1 - player) []).set ci (-1))
    | none => g.positions
  let ps2 :=
    match m.piece with
    | some pi => ps1.set player ((ps1.getD player []).set pi m.newpos)
    | none =>
        ps1.set player
          ((ps1.getD player []).set ((ps1.getD player []).findIdx (fun x => x == (-1 : Int))) m.newpos)
  ({ g with positions := ps2 }, m.extra)

/-- Method is_winner(player): all pieces equal TRACK_LEN. -/
def is_winner (g : RoyalGameOfUr) (player : Nat) : Bool :=
  (g.posOf player).all (fun pos => pos == TRACK_LEN)

/-- The freshly constructed game: both players have 7 pieces at -1 and
player 0 moves first. -/
def init : RoyalGameOfUr := ⟨[List.replicate 7 (-1), List.replicate 7 (-1)], 0⟩

end RoyalGameOfUr

/-- roll_dice: the sum of four independent draws from [0, 1]. -/
def roll_dice (draws : Fin 4 → Fin 2) : Int :=
  (List.ofFn fun i => (((draws i) : Nat) : Int)).sum

/-- The UI states of the main loop that matter for turn resolution. -/
inductive UIState where
  | await_roll
  | await_select
  | await_quiz
  | game_over
deriving DecidableEq, Repr

/-- The await_dest handler of the main loop, after a chosen legal move:
apply the move; on a win go to game_over; on a quiz-trigger rosette go
to await_quiz keeping current_player; on rosette 13 keep the turn; else
pass the turn.  The capture animation only delays the queued state and
is omitted. -/
def handleDest (g : RoyalGameOfUr) (m : Move) : RoyalGameOfUr × UIState :=
  if (g.apply_move g.current_player m).1.is_winner g.current_player then
    ((g.apply_move g.current_player m).1, UIState.game_over)
  else if (g.apply_move g.current_player m).2 && QUIZ_TRIGGER_ROSETTES m.newpos then
    ((g.apply_move g.current_player m).1, UIState.await_quiz)
  else if (g.apply_move g.current_player m).2 then
    ((g.apply_move g.current_player m).1, UIState.await_roll)
  else
    ({ (g.apply_move g.current_player m).1 with current_player := 1 - g.current_player },
      UIState.await_roll)

/-- The await_quiz handler: a correct answer keeps the turn with the
stored quiz_player, a wrong answer passes it. -/
def handleQuiz (g : RoyalGameOfUr) (quiz_player : Nat) (correct : Bool) : RoyalGameOfUr :=
  { g with current_player := if correct then quiz_player else 1 - quiz_player }

/-- One full resolution of a chosen move: the await_dest handler,
followed, when a quiz was triggered, by the await_quiz handler with the
externally supplied verdict.  quiz_player is the mover, as stored by
the handler. -/
def resolveMove (g : RoyalGameOfUr) (m : Move) (verdict : Bool) : RoyalGameOfUr × UIState :=
  match (handleDest g m).2 with
  | UIState.await_quiz => (handleQuiz (handleDest g m).1 g.current_player verdict, UIState.await_roll)
  | s => ((handleDest g m).1, s)

/-- The destination-click dispatch of the await_dest handler: among the
legal moves of the selected piece, execute the first whose destination
is the clicked square; otherwise leave the game untouched and return to
piece selection. -/
def chooseMove (g : RoyalGameOfUr) (lm : List Move) (selected : Option Nat)
    (pos_clicked : Int) : RoyalGameOfUr × UIState :=
  match (lm.filter (fun m => m.piece == selected)).find? (fun m => m.newpos == pos_clicked) with
  | some chosen => handleDest g chosen
  | none => (g, UIState.await_select)

/-- Every position value is a board value: -1 (off), 0..13 (track) or
14 (borne off). -/
def posBound (l : List Int) : Prop := ∀ x ∈ l, -1 ≤ x ∧ x ≤ 14

/-- No two pieces of one player occupy the same on-track slot. -/
def noStack (l : List Int) : Prop :=
  ∀ i j : Fin l.length, i ≠ j → onTrack (l.get i) = true → l.get i ≠ l.get j

/-- No shared slot holds pieces of both players. -/
def sharedExcl (a b : List Int) : Prop :=
  ∀ x ∈ a, SHARED x = true → x ∉ b

instance posBound.dec (l : List Int) : Decidable (posBound l) := by
  unfold posBound
  infer_instance

instance noStack.dec (l : List Int) : Decidable (noStack l) := by
  unfold noStack
  infer_instance

instance sharedExcl.dec (a b : List Int) : Decidable (sharedExcl a b) := by
  unfold sharedExcl
  infer_instance

/-- The joint well-formedness of the two position lists. -/
def InvL (own opp : List Int) : Prop :=
  posBound own ∧ posBound opp ∧ noStack own ∧ noStack opp ∧ sharedExcl own opp

/-- The game-state invariant. -/
def GameInv (g : RoyalGameOfUr) : Prop :=
  ∃ w b, g.positions = [w, b] ∧ w.length = 7 ∧ b.length = 7 ∧ InvL w b ∧
    g.current_player < 2

/-- The states reachable by the game loop: start at the fresh game and
repeatedly resolve a move that legal_moves offers to the player to
move, for a roll that roll_dice can produce. -/
inductive Reachable : RoyalGameOfUr → Prop where
  | init : Reachable RoyalGameOfUr.init
  | step (g : RoyalGameOfUr) (roll : Int) (m : Move) (verdict : Bool) :
      Reachable g → 0 ≤ roll → roll ≤ 4 →
      m ∈ g.legal_moves g.current_player roll →
      Reachable (resolveMove g m verdict).1

/-- The opponent-list update of apply_move. -/
def capUpd (opp : List Int) (m : Move) : List Int :=
  match m.captured with
  | some ci => opp.set ci (-1)
  | none => opp

/-- The own-list update of apply_move. -/
def ownUpd (own : List Int) (m : Move) : List Int :=
  match m.piece with
  | some pi => own.set pi m.newpos
  | none => own.set (own.findIdx (fun x => x == (-1 : Int))) m.newpos

/-- A sample mid-game state used for concrete witnesses: player 0 has
a piece at slot 2, player 1 a piece at shared slot 5. -/
def c1WitnessGame : RoyalGameOfUr :=
  ⟨[[2, -1, -1, -1, -1, -1, -1], [5, -1, -1, -1, -1, -1, -1]], 0⟩

/-- A sample state with a player-0 piece one step from bearing off. -/
def c7WitnessGame : RoyalGameOfUr :=
  ⟨[[13, -1, -1, -1, -1, -1, -1], List.replicate 7 (-1)], 0⟩

/-- A sample state with a player-0 piece on the track and the rest off
the board. -/
def c10WitnessGame : RoyalGameOfUr :=
  ⟨[[3, -1, -1, -1, -1, -1, -1], List.replicate 7 (-1)], 0⟩

lemma shared_onTrack {x : Int} (h : SHARED x = true) : onTrack x = true := by
  simp only [SHARED, decide_eq_true_eq] at h
  simp only [onTrack, TRACK_LEN, decide_eq_true_eq]
  omega

lemma landing_fst_sound {own opp : List Int} {d : Int}
    (h : (landing_info own opp d).1 = true) :
    inSet own d = false ∧
    ((SHARED d && inSet opp d) = true →
      CAPTURE_SQUARES d = true ∧
      (landing_info own opp d).2 = some (opp.findIdx (fun x => x == d))) ∧
    ((SHARED d && inSet opp d) = false → (landing_info own opp d).2 = none) := by
  unfold landing_info at h ⊢
  by_cases h1 : inSet own d = true
  · simp [h1] at h
  · have h1f : inSet own d = false := by simpa using h1
    by_cases h2 : (SHARED d && inSet opp d) = true
    · by_cases h3 : CAPTURE_SQUARES d = true
      · simp [h1f, h2, h3]
      · have h3f : CAPTURE_SQUARES d = false := by simpa using h3
        simp [h1f, h2, h3f] at h
    · have h2f : (SHARED d && inSet opp d) = false := by simpa using h2
      simp [h1f, h2f]

lemma findIdx_spec (p : Int → Bool) (l : List Int) (h : ∃ x ∈ l, p x = true) :
    l.findIdx p < l.length ∧ p (l.getD (l.findIdx p) 0) = true ∧
    ∀ k, k < l.findIdx p → p (l.getD k 0) = false := by
  induction l with
  | nil => simp at h
  | cons a t ih =>
    rw [List.findIdx_cons]
    by_cases hpa : p a = true
    · simp [hpa]
    · have hpaf : p a = false := by simpa using hpa
      have ht : ∃ x ∈ t, p x = true := by
        rcases h with ⟨x, hx, hpx⟩
        rcases List.mem_cons.mp hx with rfl | hx2
        · exact absurd hpx hpa
        · exact ⟨x, hx2, hpx⟩
      obtain ⟨ih1, ih2, ih3⟩ := ih ht
      simp only [hpaf, cond_false]
      refine ⟨by simpa using Nat.succ_lt_succ ih1, by simpa using ih2, ?_⟩
      intro k hk
      cases k with
      | zero => simpa using hpaf
      | succ k2 =>
        simp only [List.getD_cons_succ]
        exact ih3 k2 (by omega)

lemma pieceMoves_sound {own opp : List Int} {roll : Int} {i : Nat} {m : Move}
    (h : m ∈ pieceMoves own opp roll i) :
    m.piece = some i ∧ onTrack (own.getD i 0) = true ∧ m.newpos = own.getD i 0 + roll ∧
    ((m.newpos = 14 ∧ m.extra = false ∧ m.captured = none) ∨
     (m.newpos < 14 ∧ (landing_info own opp m.newpos).1 = true ∧
       m.captured = (landing_info own opp m.newpos).2 ∧ m.extra = ROSETTES m.newpos)) := by
  unfold pieceMoves at h
  by_cases h1 : onTrack (own.getD i 0) = true
  · rw [if_pos h1] at h
    by_cases h2 : TRACK_LEN < own.getD i 0 + roll
    · rw [if_pos h2] at h; simp at h
    · rw [if_neg h2] at h
      by_cases h3 : own.getD i 0 + roll = TRACK_LEN
      · rw [if_pos h3] at h
        simp only [List.mem_singleton] at h
        subst h
        refine ⟨rfl, h1, rfl, Or.inl ⟨?_, rfl, rfl⟩⟩
        simpa [TRACK_LEN] using h3
      · rw [if_neg h3] at h
        by_cases h4 : (landing_info own opp (own.getD i 0 + roll)).1 = true
        · rw [if_pos h4] at h
          simp only [List.mem_singleton] at h
          subst h
          refine ⟨rfl, h1, rfl, Or.inr ⟨?_, h4, rfl, rfl⟩⟩
          show own.getD i 0 + roll < 14
          simp only [TRACK_LEN, not_lt] at h2 h3
          omega
        · rw [if_neg h4] at h; simp at h
  · rw [if_neg h1] at h; simp at h

lemma entryMoves_eq (own opp : List Int) (roll : Int) :
    entryMoves own opp roll =
      if ((-1 : Int) ∈ own ∧ onTrack (roll - 1) = true ∧
          (landing_info own opp (roll - 1)).1 = true)
      then [⟨none, roll - 1, ROSETTES (roll - 1), (landing_info own opp (roll - 1)).2⟩]
      else [] := by
  unfold entryMoves
  by_cases h1 : (-1 : Int) ∈ own
  · by_cases h2 : onTrack (roll - 1) = true
    · by_cases h3 : (landing_info own opp (roll - 1)).1 = true
      · simp [h1, h2, h3]
      · simp [h1, h2, h3]
    · simp [h1, h2]
  · simp [h1]

lemma legal_sound {own opp : List Int} {roll : Int} {m : Move}
    (h : m ∈ legalMovesL own opp roll) :
    roll ≠ 0 ∧
    ((∃ i, i < own.length ∧ m.piece = some i ∧ onTrack (own.getD i 0) = true ∧
        m.newpos = own.getD i 0 + roll) ∨
      (m.piece = none ∧ (-1 : Int) ∈ own ∧ m.newpos = roll - 1 ∧ onTrack m.newpos = true)) ∧
    ((m.newpos = 14 ∧ m.extra = false ∧ m.captured = none) ∨
      (m.newpos < 14 ∧ (landing_info own opp m.newpos).1 = true ∧
        m.captured = (landing_info own opp m.newpos).2 ∧ m.extra = ROSETTES m.newpos)) := by
  unfold legalMovesL at h
  by_cases h0 : roll = 0
  · simp [h0] at h
  · rw [if_neg h0] at h
    rcases List.mem_append.mp h with h | h
    · rcases List.mem_flatMap.mp h with ⟨i, hi, hm⟩
      have hi2 := List.mem_range.mp hi
      obtain ⟨hp, ht, hn, hrest⟩ := pieceMoves_sound hm
      exact ⟨h0, Or.inl ⟨i, hi2, hp, ht, hn⟩, hrest⟩
    · rw [entryMoves_eq] at h
      by_cases hc : ((-1 : Int) ∈ own ∧ onTrack (roll - 1) = true ∧
          (landing_info own opp (roll - 1)).1 = true)
      · rw [if_pos hc] at h
        simp only [List.mem_singleton] at h
        subst h
        obtain ⟨hm1, hm2, hm3⟩ := hc
        refine ⟨h0, Or.inr ⟨rfl, hm1, rfl, hm2⟩, Or.inr ⟨?_, hm3, rfl, rfl⟩⟩
        show roll - 1 < 14
        simp only [onTrack, TRACK_LEN, decide_eq_true_eq] at hm2
        omega
      · rw [if_neg hc] at h; simp at h

lemma legal_extra {own opp : List Int} {roll : Int} {m : Move}
    (h : m ∈ legalMovesL own opp roll) : m.extra = ROSETTES m.newpos := by
  rcases (legal_sound h).2.2 with ⟨h14, hx, _⟩ | ⟨_, _, _, hx⟩
  · rw [hx, h14]; decide
  · exact hx

lemma getD_set (l : List Int) (i j : Nat) (v : Int) :
    (l.set i v).getD j 0 = if i = j ∧ i < l.length then v else l.getD j 0 := by
  induction l generalizing i j with
  | nil => simp
  | cons a t ih =>
    cases i with
    | zero =>
      cases j with
      | zero => simp
      | succ j2 => simp
    | succ i2 =>
      cases j with
      | zero => simp
      | succ j2 =>
        rw [List.set_cons_succ, List.getD_cons_succ, List.getD_cons_succ, ih]
        by_cases hcc : i2 = j2 ∧ i2 < t.length
        · have h2 : i2 + 1 = j2 + 1 ∧ i2 + 1 < (a :: t).length := by
            simp only [List.length_cons]; omega
          rw [if_pos hcc, if_pos h2]
        · have h2 : ¬(i2 + 1 = j2 + 1 ∧ i2 + 1 < (a :: t).length) := by
            simp only [List.length_cons]; omega
          rw [if_neg hcc, if_neg h2]

lemma mem_getD {l : List Int} {a : Int} (h : a ∈ l) :
    ∃ j, j < l.length ∧ l.getD j 0 = a := by
  obtain ⟨j, hj, hget⟩ := List.mem_iff_getElem.mp h
  exact ⟨j, hj, by rw [List.getD_eq_getElem l 0 hj]; exact hget⟩

lemma getD_mem {l : List Int} {j : Nat} (hj : j < l.length) : l.getD j 0 ∈ l := by
  rw [List.getD_eq_getElem l 0 hj]
  exact List.getElem_mem hj

lemma noStack_getD {l : List Int} (h : noStack l) {i j : Nat} (hi : i < l.length)
    (hj : j < l.length) (hij : i ≠ j) (ht : onTrack (l.getD i 0) = true) :
    l.getD i 0 ≠ l.getD j 0 := by
  have e1 : l.getD i 0 = l.get ⟨i, hi⟩ := by
    rw [List.getD_eq_getElem l 0 hi, List.get_eq_getElem]
  have e2 : l.getD j 0 = l.get ⟨j, hj⟩ := by
    rw [List.getD_eq_getElem l 0 hj, List.get_eq_getElem]
  rw [e1, e2]
  rw [e1] at ht
  exact h ⟨i, hi⟩ ⟨j, hj⟩ (Fin.ne_of_val_ne hij) ht

lemma noStack_of_getD {l : List Int}
    (h : ∀ i j, i < l.length → j < l.length → i ≠ j →
      onTrack (l.getD i 0) = true → l.getD i 0 ≠ l.getD j 0) : noStack l := by
  intro a b hab ht
  have e1 : l.get a = l.getD (a : Nat) 0 := by
    rw [List.getD_eq_getElem l 0 a.isLt, List.get_eq_getElem]
  have e2 : l.get b = l.getD (b : Nat) 0 := by
    rw [List.getD_eq_getElem l 0 b.isLt, List.get_eq_getElem]
  rw [e1, e2]
  rw [e1] at ht
  exact h a b a.isLt b.isLt (Fin.val_ne_of_ne hab) ht

lemma noStack_set {l : List Int} {v : Int} (i : Nat) (h : noStack l)
    (hv : onTrack v = true → v ∉ l) : noStack (l.set i v) := by
  apply noStack_of_getD
  intro a b ha hb hab ht
  rw [List.length_set] at ha hb
  simp only [getD_set] at ht ⊢
  by_cases hia : i = a ∧ i < l.length
  · rw [if_pos hia] at ht ⊢
    have hib : ¬(i = b ∧ i < l.length) := fun hc => hab (hia.1 ▸ hc.1)
    rw [if_neg hib]
    intro he
    exact hv ht (he ▸ getD_mem hb)
  · rw [if_neg hia] at ht ⊢
    by_cases hib : i = b ∧ i < l.length
    · rw [if_pos hib]
      intro he
      exact hv (he ▸ ht) (he ▸ getD_mem ha)
    · rw [if_neg hib]
      exact noStack_getD h ha hb hab ht

lemma posBound_set {l : List Int} {v : Int} {i : Nat} (h : posBound l)
    (hv : -1 ≤ v ∧ v ≤ 14) : posBound (l.set i v) := by
  intro x hx
  rcases List.mem_or_eq_of_mem_set hx with hx2 | rfl
  · exact h x hx2
  · exact hv

lemma sharedExcl_symm {a b : List Int} (h : sharedExcl a b) : sharedExcl b a :=
  fun x hxb hs hxa => h x hxa hs hxb

lemma not_mem_set_findIdx {l : List Int} {d : Int} (hd : onTrack d = true)
    (hnd : noStack l) (hmem : d ∈ l) :
    d ∉ l.set (l.findIdx (fun x => x == d)) (-1) := by
  intro hc
  have hex : ∃ x ∈ l, (fun x => x == d) x = true := ⟨d, hmem, by simp⟩
  obtain ⟨hlt, hat, -⟩ := findIdx_spec _ l hex
  have hatd : l.getD (l.findIdx (fun x => x == d)) 0 = d := by simpa using hat
  obtain ⟨j, hj, hval⟩ := mem_getD hc
  rw [List.length_set] at hj
  rw [getD_set] at hval
  by_cases hcj : l.findIdx (fun x => x == d) = j ∧ l.findIdx (fun x => x == d) < l.length
  · rw [if_pos hcj] at hval
    simp only [onTrack, TRACK_LEN, decide_eq_true_eq] at hd
    omega
  · rw [if_neg hcj] at hval
    have hjc : j ≠ l.findIdx (fun x => x == d) := by
      intro he
      exact hcj ⟨he.symm, hlt⟩
    exact noStack_getD hnd hj hlt hjc (by rw [hval]; exact hd) (hval.trans hatd.symm)

lemma capUpd_none {opp : List Int} {m : Move} (h : m.captured = none) :
    capUpd opp m = opp := by
  unfold capUpd
  rw [h]

lemma capUpd_some {opp : List Int} {m : Move} {c : Nat} (h : m.captured = some c) :
    capUpd opp m = opp.set c (-1) := by
  unfold capUpd
  rw [h]

lemma ownUpd_is_set (own : List Int) (m : Move) :
    ∃ j, ownUpd own m = own.set j m.newpos := by
  unfold ownUpd
  cases m.piece with
  | some pi => exact ⟨pi, rfl⟩
  | none => exact ⟨own.findIdx (fun x => x == (-1 : Int)), rfl⟩

lemma InvL_step {own opp : List Int} {roll : Int} {m : Move}
    (hroll : 0 ≤ roll)
    (hm : m ∈ legalMovesL own opp roll)
    (hI : InvL own opp) : InvL (ownUpd own m) (capUpd opp m) := by
  obtain ⟨hPo, hPp, hNo, hNp, hEx⟩ := hI
  obtain ⟨-, hsrc, hland⟩ := legal_sound hm
  have hlow : -1 ≤ m.newpos := by
    rcases hsrc with ⟨i, hi, -, ht, hn⟩ | ⟨-, -, hn, ht⟩
    · simp only [onTrack, TRACK_LEN, decide_eq_true_eq] at ht
      omega
    · simp only [onTrack, TRACK_LEN, decide_eq_true_eq] at ht
      omega
  have hhigh : m.newpos ≤ 14 := by
    rcases hland with ⟨h14, -, -⟩ | ⟨hlt, -, -, -⟩ <;> omega
  obtain ⟨j, hset⟩ := ownUpd_is_set own m
  have hnotin : onTrack m.newpos = true → m.newpos ∉ own := by
    intro ht
    rcases hland with ⟨h14, -, -⟩ | ⟨hlt, hall, -, -⟩
    · rw [h14] at ht
      exact absurd ht (by decide)
    · have h1 := (landing_fst_sound hall).1
      simp only [inSet, ht, Bool.true_and, decide_eq_false_iff_not] at h1
      exact h1
  refine ⟨?_, ?_, ?_, ?_, ?_⟩
  · rw [hset]
    exact posBound_set hPo ⟨hlow, hhigh⟩
  · cases hc : m.captured with
    | none => rw [capUpd_none hc]; exact hPp
    | some c =>
      rw [capUpd_some hc]
      exact posBound_set hPp ⟨by omega, by omega⟩
  · rw [hset]
    exact noStack_set j hNo hnotin
  · cases hc : m.captured with
    | none => rw [capUpd_none hc]; exact hNp
    | some c =>
      rw [capUpd_some hc]
      exact noStack_set c hNp (fun habs => absurd habs (by decide))
  · intro x hx hs hxb
    rw [hset] at hx
    rcases List.mem_or_eq_of_mem_set hx with hx2 | rfl
    · cases hc : m.captured with
      | none =>
        rw [capUpd_none hc] at hxb
        exact hEx x hx2 hs hxb
      | some c =>
        rw [capUpd_some hc] at hxb
        rcases List.mem_or_eq_of_mem_set hxb with hxb2 | rfl
        · exact hEx x hx2 hs hxb2
        · exact absurd hs (by decide)
    · have htx : onTrack m.newpos = true := shared_onTrack hs
      rcases hland with ⟨h14, -, -⟩ | ⟨hlt, hall, hcapeq, -⟩
      · rw [h14] at hs
        exact absurd hs (by decide)
      · obtain ⟨hio, hcs, hcn⟩ := landing_fst_sound hall
        by_cases hocc : (SHARED m.newpos && inSet opp m.newpos) = true
        · obtain ⟨hcapt, h2⟩ := hcs hocc
          have hmemopp : m.newpos ∈ opp := by
            have h3 := (Bool.and_eq_true _ _).mp hocc
            have h4 := h3.2
            simp only [inSet, htx, Bool.true_and, decide_eq_true_eq] at h4
            exact h4
          have hnm := not_mem_set_findIdx htx hNp hmemopp
          apply hnm
          rw [capUpd_some (by rw [hcapeq, h2]), ] at hxb
          exact hxb
        · have hocc2 : (SHARED m.newpos && inSet opp m.newpos) = false := by
            simpa using hocc
          have hnone := hcn hocc2
          rw [capUpd_none (by rw [hcapeq, hnone])] at hxb
          rw [hs, Bool.true_and] at hocc2
          simp only [inSet, htx, Bool.true_and, decide_eq_false_iff_not] at hocc2
          exact hocc2 hxb

lemma InvL_symm {a b : List Int} (h : InvL a b) : InvL b a :=
  ⟨h.2.1, h.1, h.2.2.2.1, h.2.2.1, sharedExcl_symm h.2.2.2.2⟩

lemma ownUpd_length (own : List Int) (m : Move) :
    (ownUpd own m).length = own.length := by
  obtain ⟨j, hj⟩ := ownUpd_is_set own m
  rw [hj, List.length_set]

lemma capUpd_length (opp : List Int) (m : Move) :
    (capUpd opp m).length = opp.length := by
  unfold capUpd
  cases m.captured <;> simp

lemma apply_move_current (g : RoyalGameOfUr) (p : Nat) (m : Move) :
    (g.apply_move p m).1.current_player = g.current_player := by
  unfold RoyalGameOfUr.apply_move
  cases m.captured <;> cases m.piece <;> rfl

lemma apply_move_snd (g : RoyalGameOfUr) (p : Nat) (m : Move) :
    (g.apply_move p m).2 = m.extra := by
  unfold RoyalGameOfUr.apply_move
  cases m.captured <;> cases m.piece <;> rfl

lemma apply_move_positions_zero {g : RoyalGameOfUr} {w b : List Int}
    (hpos : g.positions = [w, b]) (m : Move) :
    (g.apply_move 0 m).1.positions = [ownUpd w m, capUpd b m] := by
  unfold RoyalGameOfUr.apply_move ownUpd capUpd
  cases m.captured <;> cases m.piece <;>
    simp [hpos, List.set_cons_succ, List.set_cons_zero, List.getD_cons_succ,
      List.getD_cons_zero]

lemma apply_move_positions_one {g : RoyalGameOfUr} {w b : List Int}
    (hpos : g.positions = [w, b]) (m : Move) :
    (g.apply_move 1 m).1.positions = [capUpd w m, ownUpd b m] := by
  unfold RoyalGameOfUr.apply_move ownUpd capUpd
  cases m.captured <;> cases m.piece <;>
    simp [hpos, List.set_cons_succ, List.set_cons_zero, List.getD_cons_succ,
      List.getD_cons_zero]

lemma handleDest_fst_positions (g : RoyalGameOfUr) (m : Move) :
    (handleDest g m).1.positions = (g.apply_move g.current_player m).1.positions := by
  unfold handleDest
  split_ifs <;> rfl

lemma handleDest_current (g : RoyalGameOfUr) (m : Move) :
    (handleDest g m).1.current_player = g.current_player ∨
      (handleDest g m).1.current_player = 1 - g.current_player := by
  unfold handleDest
  split_ifs <;> simp [apply_move_current]

lemma resolveMove_positions (g : RoyalGameOfUr) (m : Move) (v : Bool) :
    (resolveMove g m v).1.positions = (g.apply_move g.current_player m).1.positions := by
  unfold resolveMove
  cases h : (handleDest g m).2 <;>
    simp [h, handleQuiz, handleDest_fst_positions]

lemma resolveMove_current_lt {g : RoyalGameOfUr} (m : Move) (v : Bool)
    (h : g.current_player < 2) : (resolveMove g m v).1.current_player < 2 := by
  unfold resolveMove
  have hd := handleDest_current g m
  cases hh : (handleDest g m).2 <;> simp [hh, handleQuiz] <;>
    rcases hd with hd | hd <;> first
      | (rw [hd]; omega)
      | (cases v <;> simp <;> omega)

lemma GameInv_init : GameInv RoyalGameOfUr.init := by
  refine ⟨List.replicate 7 (-1), List.replicate 7 (-1), rfl, by simp, by simp,
    ⟨?_, ?_, ?_, ?_, ?_⟩, by decide⟩ <;> decide

lemma GameInv_step {g : RoyalGameOfUr} {roll : Int} {m : Move} {v : Bool}
    (hI : GameInv g) (h0 : 0 ≤ roll)
    (hm : m ∈ g.legal_moves g.current_player roll) :
    GameInv (resolveMove g m v).1 := by
  obtain ⟨w, b, hpos, hlw, hlb, hIL, hcp⟩ := hI
  have hcur := resolveMove_current_lt m v hcp
  have hps := resolveMove_positions g m v
  have hp2 : g.current_player = 0 ∨ g.current_player = 1 := by omega
  rcases hp2 with hp | hp
  · have hlegal : m ∈ legalMovesL w b roll := by
      unfold RoyalGameOfUr.legal_moves RoyalGameOfUr.posOf at hm
      rw [hp, hpos] at hm
      simpa [List.getD_cons_succ, List.getD_cons_zero] using hm
    refine ⟨ownUpd w m, capUpd b m, ?_, ?_, ?_, InvL_step h0 hlegal hIL, hcur⟩
    · rw [hps, hp, apply_move_positions_zero hpos m]
    · rw [ownUpd_length]; exact hlw
    · rw [capUpd_length]; exact hlb
  · have hlegal : m ∈ legalMovesL b w roll := by
      unfold RoyalGameOfUr.legal_moves RoyalGameOfUr.posOf at hm
      rw [hp, hpos] at hm
      simpa [List.getD_cons_succ, List.getD_cons_zero] using hm
    refine ⟨capUpd w m, ownUpd b m, ?_, ?_, ?_,
      InvL_symm (InvL_step h0 hlegal (InvL_symm hIL)), hcur⟩
    · rw [hps, hp, apply_move_positions_one hpos m]
    · rw [capUpd_length]; exact hlw
    · rw [ownUpd_length]; exact hlb

lemma reachable_inv {g : RoyalGameOfUr} (h : Reachable g) : GameInv g := by
  induction h with
  | init => exact GameInv_init
  | step g2 roll m v hr h0 h4 hm ih => exact GameInv_step ih h0 hm

lemma resolveMove_eval {g : RoyalGameOfUr} {m : Move} (verdict : Bool)
    (hw : (g.apply_move g.current_player m).1.is_winner g.current_player = false) :
    resolveMove g m verdict =
      if (m.extra && QUIZ_TRIGGER_ROSETTES m.newpos) = true then
        ({ (g.apply_move g.current_player m).1 with
            current_player := if verdict then g.current_player else 1 - g.current_player },
          UIState.await_roll)
      else if m.extra = true then
        ((g.apply_move g.current_player m).1, UIState.await_roll)
      else
        ({ (g.apply_move g.current_player m).1 with
            current_player := 1 - g.current_player },
          UIState.await_roll) := by
  have hsnd := apply_move_snd g g.current_player m
  unfold resolveMove handleDest
  rw [hsnd, hw]
  by_cases hq : (m.extra && QUIZ_TRIGGER_ROSETTES m.newpos) = true
  · simp [hq, handleQuiz]
  · have hq2 : (m.extra && QUIZ_TRIGGER_ROSETTES m.newpos) = false := by simpa using hq
    by_cases hx : m.extra = true
    · have hqz : QUIZ_TRIGGER_ROSETTES m.newpos = false := by
        rw [hx] at hq2
        simpa using hq2
      simp [hq2, hx, hqz]
    · have hx2 : m.extra = false := by simpa using hx
      simp [hq2, hx2]

/-- Claim C1: for a candidate destination d in 0..13, landing is blocked
when the mover already occupies d; on a shared slot occupied by an
opponent piece the move is allowed with a capture exactly on shared
non-rosette slots and blocked on the shared rosette 7; in every other
case the move is allowed with no capture. -/
theorem c1_landing_rules (g : RoyalGameOfUr) (p : Nat) (d : Int)
    (hd : onTrack d = true) :
    (d ∈ g.posOf p → landing_info (g.posOf p) (g.posOf (1 - p)) d = (false, none)) ∧
    (d ∉ g.posOf p → SHARED d = true → d ∈ g.posOf (1 - p) →
      ((CAPTURE_SQUARES d = true →
          landing_info (g.posOf p) (g.posOf (1 - p)) d =
            (true, some ((g.posOf (1 - p)).findIdx (fun x => x == d)))) ∧
       (CAPTURE_SQUARES d = false →
          d = 7 ∧ landing_info (g.posOf p) (g.posOf (1 - p)) d = (false, none)))) ∧
    (d ∉ g.posOf p → (SHARED d = false ∨ d ∉ g.posOf (1 - p)) →
      landing_info (g.posOf p) (g.posOf (1 - p)) d = (true, none)) := by
  refine ⟨?_, ?_, ?_⟩
  · intro hmem
    simp [landing_info, inSet, hd, hmem]
  · intro hnot hs hmem
    constructor
    · intro hcap
      simp [landing_info, inSet, hd, hnot, hmem, hs, hcap]
    · intro hncap
      have h7 : d = 7 := by
        simp only [CAPTURE_SQUARES, hs, Bool.true_and, Bool.not_eq_false'] at hncap
        simp only [ROSETTES, decide_eq_true_eq] at hncap
        simp only [SHARED, decide_eq_true_eq] at hs
        omega
      refine ⟨h7, ?_⟩
      simp [landing_info, inSet, hd, hnot, hmem, hs, hncap]
  · intro hnot hcase
    rcases hcase with hs | hmem
    · simp [landing_info, inSet, hd, hnot, hs]
    · simp [landing_info, inSet, hd, hnot, hmem]

theorem c1_landing_rules_witness :
    landing_info (c1WitnessGame.posOf 0) (c1WitnessGame.posOf 1) 5 = (true, some 0) := by
  have h := c1_landing_rules c1WitnessGame 0 5 (by decide)
  have h2 := (h.2.1 (by decide) (by decide) (by decide)).1 (by decide)
  simpa using h2

/-- Claim C2: after a chosen legal move that does not win the game, the
same player is to move at the next roll iff the landing slot is a
rosette and either it is the ungated rosette 13 or it is quiz-gated
(slots 3 and 7) and the quiz verdict is true; otherwise the turn passes
to the other player. -/
theorem c2_turn_handoff (g : RoyalGameOfUr) (roll : Int) (m : Move) (verdict : Bool)
    (hp : g.current_player < 2)
    (hm : m ∈ g.legal_moves g.current_player roll)
    (hw : (g.apply_move g.current_player m).1.is_winner g.current_player = false) :
    (resolveMove g m verdict).2 = UIState.await_roll ∧
    ((resolveMove g m verdict).1.current_player = g.current_player ↔
      (ROSETTES m.newpos = true ∧
        (m.newpos = 13 ∨ (QUIZ_TRIGGER_ROSETTES m.newpos = true ∧ verdict = true)))) ∧
    ((resolveMove g m verdict).1.current_player ≠ g.current_player →
      (resolveMove g m verdict).1.current_player = 1 - g.current_player) := by
  have hmL : m ∈ legalMovesL (g.posOf g.current_player) (g.posOf (1 - g.current_player)) roll := hm
  have hextra : m.extra = ROSETTES m.newpos := legal_extra hmL
  rw [resolveMove_eval verdict hw]
  by_cases hq : (m.extra && QUIZ_TRIGGER_ROSETTES m.newpos) = true
  · have hq3 := hq
    simp only [Bool.and_eq_true] at hq3
    obtain ⟨hx, hqz⟩ := hq3
    have hros : ROSETTES m.newpos = true := hextra ▸ hx
    have hn13 : m.newpos ≠ 13 := by
      simp only [QUIZ_TRIGGER_ROSETTES, decide_eq_true_eq] at hqz
      omega
    rw [if_pos hq]
    refine ⟨rfl, ?_, ?_⟩
    · cases verdict with
      | true => simp [hros, hqz]
      | false =>
        simp only [if_neg (Bool.false_ne_true)]
        constructor
        · intro he
          exfalso
          simp at he
          omega
        · intro he
          exfalso
          rcases he.2 with h13 | hvf
          · exact hn13 h13
          · exact Bool.false_ne_true hvf.2
    · cases verdict with
      | true =>
        intro he
        exfalso
        apply he
        simp
      | false => intro he; rfl
  · have hq2 : (m.extra && QUIZ_TRIGGER_ROSETTES m.newpos) = false := by simpa using hq
    rw [if_neg (by simp [hq2])]
    by_cases hx : m.extra = true
    · have hqz : QUIZ_TRIGGER_ROSETTES m.newpos = false := by
        rcases Bool.and_eq_false_iff.mp hq2 with h | h
        · exact absurd hx (by simp [h])
        · exact h
      have hros : ROSETTES m.newpos = true := hextra ▸ hx
      have h13 : m.newpos = 13 := by
        simp only [ROSETTES, decide_eq_true_eq] at hros
        simp only [QUIZ_TRIGGER_ROSETTES, decide_eq_false_iff_not] at hqz
        omega
      rw [if_pos hx]
      refine ⟨rfl, ?_, ?_⟩
      · rw [apply_move_current]
        exact ⟨fun h => ⟨hros, Or.inl h13⟩, fun h => rfl⟩
      · intro he
        exact absurd (apply_move_current g g.current_player m) he
    · have hx2 : m.extra = false := by simpa using hx
      have hros : ROSETTES m.newpos = false := hextra ▸ hx2
      rw [if_neg hx]
      refine ⟨rfl, ?_, fun he => rfl⟩
      simp only [hros]
      constructor
      · intro he
        exfalso
        simp at he
        omega
      · intro he
        exact absurd he.1 (by simp)

theorem c2_turn_handoff_witness :
    (resolveMove RoyalGameOfUr.init ⟨none, 3, true, none⟩ true).1.current_player = 0 := by
  have h := c2_turn_handoff RoyalGameOfUr.init 4 ⟨none, 3, true, none⟩ true
    (by decide) (by decide) (by decide)
  exact (h.2.1).mpr (by decide)

/-- Claim C3: in every state reachable from the fresh game by legal
moves, every piece position lies in [-1, 14], no player has two pieces
on one on-track slot, and no shared slot holds pieces of both players. -/
theorem c3_reachable_invariants (g : RoyalGameOfUr) (h : Reachable g) :
    (∀ l ∈ g.positions, ∀ x ∈ l, -1 ≤ x ∧ x ≤ 14) ∧
    (∀ l ∈ g.positions, noStack l) ∧
    (∀ x : Int, SHARED x = true →
      ¬(x ∈ g.positions.getD 0 [] ∧ x ∈ g.positions.getD 1 [])) := by
  obtain ⟨w, b, hpos, -, -, ⟨hPw, hPb, hNw, hNb, hEx⟩, -⟩ := reachable_inv h
  rw [hpos]
  refine ⟨?_, ?_, ?_⟩
  · intro l hl
    rcases List.mem_pair.mp hl with rfl | rfl
    · exact hPw
    · exact hPb
  · intro l hl
    rcases List.mem_pair.mp hl with rfl | rfl
    · exact hNw
    · exact hNb
  · intro x hs hc
    rcases hc with ⟨hxw, hxb⟩
    rw [List.getD_cons_zero] at hxw
    rw [List.getD_cons_succ, List.getD_cons_zero] at hxb
    exact hEx x hxw hs hxb

theorem c3_reachable_invariants_witness :
    (∀ l ∈ RoyalGameOfUr.init.positions, ∀ x ∈ l, -1 ≤ x ∧ x ≤ 14) ∧
    (∀ l ∈ RoyalGameOfUr.init.positions, noStack l) ∧
    (∀ x : Int, SHARED x = true →
      ¬(x ∈ RoyalGameOfUr.init.positions.getD 0 [] ∧
        x ∈ RoyalGameOfUr.init.positions.getD 1 [])) :=
  c3_reachable_invariants RoyalGameOfUr.init Reachable.init

/-- Claim C4: a supplied move whose selected piece and clicked
destination match no currently legal move is rejected: the game state
is unchanged and the handler returns to piece selection. -/
theorem c4_invalid_move_rejected (g : RoyalGameOfUr) (p : Nat) (roll : Int)
    (selected : Option Nat) (pos_clicked : Int)
    (h : ∀ m ∈ g.legal_moves p roll, ¬(m.piece = selected ∧ m.newpos = pos_clicked)) :
    chooseMove g (g.legal_moves p roll) selected pos_clicked =
      (g, UIState.await_select) := by
  unfold chooseMove
  have hfind : ((g.legal_moves p roll).filter (fun m => m.piece == selected)).find?
      (fun m => m.newpos == pos_clicked) = none := by
    rw [List.find?_eq_none]
    intro x hx
    have hx2 := List.mem_filter.mp hx
    have hps : x.piece = selected := by simpa using hx2.2
    intro hc
    exact h x hx2.1 ⟨hps, by simpa using hc⟩
  rw [hfind]

theorem c4_invalid_move_rejected_witness :
    chooseMove RoyalGameOfUr.init (RoyalGameOfUr.init.legal_moves 0 4) (some 0) 3 =
      (RoyalGameOfUr.init, UIState.await_select) :=
  c4_invalid_move_rejected RoyalGameOfUr.init 0 4 (some 0) 3 (by decide)

/-- Claim C5: legal_moves never offers a destination above 13 other
than exactly 14, and never a destination already held by an on-track
piece of the mover. -/
theorem c5_destination_safety (g : RoyalGameOfUr) (p : Nat) (roll : Int) (m : Move)
    (hm : m ∈ g.legal_moves p roll) :
    (13 < m.newpos → m.newpos = 14) ∧
    (m.newpos ≠ 14 → inSet (g.posOf p) m.newpos = false) := by
  have hmL : m ∈ legalMovesL (g.posOf p) (g.posOf (1 - p)) roll := hm
  obtain ⟨-, -, hland⟩ := legal_sound hmL
  constructor
  · intro hgt
    rcases hland with ⟨h14, -, -⟩ | ⟨hlt, -, -, -⟩
    · exact h14
    · omega
  · intro hne
    rcases hland with ⟨h14, -, -⟩ | ⟨-, hall, -, -⟩
    · exact absurd h14 hne
    · exact (landing_fst_sound hall).1

theorem c5_destination_safety_witness :
    (13 < (3 : Int) → (3 : Int) = 14) ∧
    ((3 : Int) ≠ 14 → inSet (RoyalGameOfUr.init.posOf 0) 3 = false) :=
  c5_destination_safety RoyalGameOfUr.init 0 4 ⟨none, 3, true, none⟩ (by decide)

/-- Claim C6: for a nonzero roll the returned sequence is the on-track
piece moves followed by at most one entry move, the entry move being
present exactly when a piece is off-board, the entry slot roll - 1 is
on the track and the landing rule allows it; the entry move carries the
standard rosette bonus rule and the landing-rule capture. -/
theorem c6_entry_move (g : RoyalGameOfUr) (p : Nat) (roll : Int) (h0 : roll ≠ 0) :
    ∃ tms ems,
      g.legal_moves p roll = tms ++ ems ∧
      (∀ m ∈ tms, m.piece ≠ none) ∧
      (∀ m ∈ ems, m.piece = none) ∧
      ems.length ≤ 1 ∧
      (ems ≠ [] ↔ ((-1 : Int) ∈ g.posOf p ∧ onTrack (roll - 1) = true ∧
        (landing_info (g.posOf p) (g.posOf (1 - p)) (roll - 1)).1 = true)) ∧
      (∀ m ∈ ems, m.newpos = roll - 1 ∧ m.extra = ROSETTES (roll - 1) ∧
        m.captured = (landing_info (g.posOf p) (g.posOf (1 - p)) (roll - 1)).2) := by
  refine ⟨(List.range (g.posOf p).length).flatMap
      (pieceMoves (g.posOf p) (g.posOf (1 - p)) roll),
    entryMoves (g.posOf p) (g.posOf (1 - p)) roll, ?_, ?_, ?_, ?_, ?_, ?_⟩
  · unfold RoyalGameOfUr.legal_moves legalMovesL
    rw [if_neg h0]
  · intro m hm
    rcases List.mem_flatMap.mp hm with ⟨i, -, hmi⟩
    have hp := (pieceMoves_sound hmi).1
    simp [hp]
  · intro m hm
    rw [entryMoves_eq] at hm
    split at hm
    · simp only [List.mem_singleton] at hm
      subst hm
      rfl
    · simp at hm
  · rw [entryMoves_eq]
    split <;> simp
  · rw [entryMoves_eq]
    split
    · next hc => simp [hc]
    · next hc => simp [hc]
  · intro m hm
    rw [entryMoves_eq] at hm
    split at hm
    · simp only [List.mem_singleton] at hm
      subst hm
      exact ⟨rfl, rfl, rfl⟩
    · simp at hm

theorem c6_entry_move_witness :
    ∃ tms ems,
      RoyalGameOfUr.init.legal_moves 0 1 = tms ++ ems ∧
      (∀ m ∈ tms, m.piece ≠ none) ∧
      (∀ m ∈ ems, m.piece = none) ∧
      ems.length ≤ 1 ∧
      (ems ≠ [] ↔ ((-1 : Int) ∈ RoyalGameOfUr.init.posOf 0 ∧ onTrack (1 - 1) = true ∧
        (landing_info (RoyalGameOfUr.init.posOf 0) (RoyalGameOfUr.init.posOf (1 - 0))
          (1 - 1)).1 = true)) ∧
      (∀ m ∈ ems, m.newpos = 1 - 1 ∧ m.extra = ROSETTES (1 - 1) ∧
        m.captured = (landing_info (RoyalGameOfUr.init.posOf 0)
          (RoyalGameOfUr.init.posOf (1 - 0)) (1 - 1)).2) :=
  c6_entry_move RoyalGameOfUr.init 0 1 (by decide)

/-- Claim C7: whenever an on-track piece has position + roll exactly
14, legal_moves contains the bear-off move for that piece, with no
capture and no bonus turn. -/
theorem c7_bearoff_always_legal (g : RoyalGameOfUr) (p : Nat) (roll : Int) (i : Nat)
    (hi : i < (g.posOf p).length)
    (ht : onTrack ((g.posOf p).getD i 0) = true)
    (hd : (g.posOf p).getD i 0 + roll = 14) :
    (⟨some i, 14, false, none⟩ : Move) ∈ g.legal_moves p roll := by
  have h0 : roll ≠ 0 := by
    simp only [onTrack, TRACK_LEN, decide_eq_true_eq] at ht
    omega
  unfold RoyalGameOfUr.legal_moves legalMovesL
  rw [if_neg h0]
  apply List.mem_append_left
  apply List.mem_flatMap.mpr
  refine ⟨i, List.mem_range.mpr hi, ?_⟩
  unfold pieceMoves
  rw [if_pos ht]
  have h2 : ¬(TRACK_LEN < (g.posOf p).getD i 0 + roll) := by
    rw [hd]
    decide
  rw [if_neg h2]
  have h3 : (g.posOf p).getD i 0 + roll = TRACK_LEN := by
    rw [hd]
    rfl
  rw [if_pos h3]
  rw [List.mem_singleton, hd]

theorem c7_bearoff_always_legal_witness :
    (⟨some 0, 14, false, none⟩ : Move) ∈ c7WitnessGame.legal_moves 0 1 :=
  c7_bearoff_always_legal c7WitnessGame 0 1 0 (by decide) (by decide) (by decide)

lemma set_getD_14_iff {l : List Int} {jm : Nat} {v : Int}
    (hv : v ≠ 14) (hold : jm < l.length → l.getD jm 0 ≠ 14) (j : Nat) :
    ((l.set jm v).getD j 0 = 14 ↔ l.getD j 0 = 14) := by
  rw [getD_set]
  split_ifs with hc
  · obtain ⟨rfl, hlt⟩ := hc
    constructor
    · intro h14
      exact absurd h14 hv
    · intro h14
      exact absurd h14 (hold hlt)
  · exact Iff.rfl

lemma ownUpd_getD_14 {own opp : List Int} {roll : Int} {m : Move}
    (hm : m ∈ legalMovesL own opp roll) (hne : m.newpos ≠ 14) (j : Nat) :
    ((ownUpd own m).getD j 0 = 14 ↔ own.getD j 0 = 14) := by
  obtain ⟨-, hsrc, -⟩ := legal_sound hm
  rcases hsrc with ⟨i, hi, hpiece, ht, -⟩ | ⟨hpiece, hoff, -, -⟩
  · unfold ownUpd
    rw [hpiece]
    apply set_getD_14_iff hne
    intro _
    simp only [onTrack, TRACK_LEN, decide_eq_true_eq] at ht
    omega
  · unfold ownUpd
    rw [hpiece]
    apply set_getD_14_iff hne
    intro hlt
    have hex : ∃ x ∈ own, (fun x => x == (-1 : Int)) x = true := ⟨-1, hoff, by simp⟩
    obtain ⟨-, hat, -⟩ := findIdx_spec _ own hex
    have h1 : own.getD (own.findIdx fun x => x == (-1 : Int)) 0 = -1 := by simpa using hat
    omega

lemma capUpd_getD_14 {own opp : List Int} {roll : Int} {m : Move}
    (hm : m ∈ legalMovesL own opp roll) (j : Nat) :
    ((capUpd opp m).getD j 0 = 14 ↔ opp.getD j 0 = 14) := by
  obtain ⟨-, -, hland⟩ := legal_sound hm
  cases hc : m.captured with
  | none => rw [capUpd_none hc]
  | some c =>
    rw [capUpd_some hc]
    rcases hland with ⟨-, -, hnone⟩ | ⟨hlt, hall, hcapeq, -⟩
    · rw [hc] at hnone
      cases hnone
    · obtain ⟨-, hcs, hcn⟩ := landing_fst_sound hall
      by_cases hocc : (SHARED m.newpos && inSet opp m.newpos) = true
      · obtain ⟨-, h2⟩ := hcs hocc
        have hceq : c = opp.findIdx (fun x => x == m.newpos) := by
          rw [hcapeq, h2] at hc
          injection hc with h3
          exact h3.symm
        have hmem : m.newpos ∈ opp := by
          have h3 := hocc
          simp only [Bool.and_eq_true] at h3
          have h4 := h3.2
          simp only [inSet, Bool.and_eq_true, decide_eq_true_eq] at h4
          exact h4.2
        have hex : ∃ x ∈ opp, (fun x => x == m.newpos) x = true :=
          ⟨m.newpos, hmem, by simp⟩
        obtain ⟨hcl, hat, -⟩ := findIdx_spec _ opp hex
        apply set_getD_14_iff (by omega)
        intro hlt2
        have h5 : opp.getD c 0 = m.newpos := by
          rw [hceq]
          simpa using hat
        omega
      · have hocc2 : (SHARED m.newpos && inSet opp m.newpos) = false := by simpa using hocc
        have h6 := hcn hocc2
        rw [hcapeq, h6] at hc
        cases hc

/-- Claim C8: is_winner(p) holds iff all 7 pieces of p equal 14, and a
non-bear-off legal move never changes which pieces stand at 14, so only
a bear-off move (destination exactly 14) can bring a piece to 14. -/
theorem c8_winner_and_bearoff_only (g : RoyalGameOfUr) (p : Nat) (roll : Int) (m : Move)
    (hp : p < 2) (hlen : g.positions.length = 2) (h7 : (g.posOf p).length = 7) :
    (g.is_winner p = true ↔ ∀ x ∈ g.posOf p, x = 14) ∧
    (m ∈ g.legal_moves p roll → m.newpos ≠ 14 →
      ∀ q j, q < 2 →
        (((g.apply_move p m).1.posOf q).getD j 0 = 14 ↔
          (g.posOf q).getD j 0 = 14)) := by
  constructor
  · simp [RoyalGameOfUr.is_winner, List.all_eq_true, TRACK_LEN]
  · intro hm hne q j hq
    obtain ⟨w, b, hpos⟩ := List.length_eq_two.mp hlen
    have hw : g.posOf 0 = w := by simp [RoyalGameOfUr.posOf, hpos]
    have hb : g.posOf 1 = b := by simp [RoyalGameOfUr.posOf, hpos]
    have hp2 : p = 0 ∨ p = 1 := by omega
    have hq2 : q = 0 ∨ q = 1 := by omega
    rcases hp2 with rfl | rfl
    · have hmL : m ∈ legalMovesL w b roll := by
        have h1 : m ∈ legalMovesL (g.posOf 0) (g.posOf (1 - 0)) roll := hm
        rwa [hw, show (1 - 0 : Nat) = 1 from rfl, hb] at h1
      have happ := apply_move_positions_zero hpos m
      rcases hq2 with rfl | rfl
      · have h2 : (g.apply_move 0 m).1.posOf 0 = ownUpd w m := by
          simp [RoyalGameOfUr.posOf, happ]
        rw [h2, hw]
        exact ownUpd_getD_14 hmL hne j
      · have h2 : (g.apply_move 0 m).1.posOf 1 = capUpd b m := by
          simp [RoyalGameOfUr.posOf, happ]
        rw [h2, hb]
        exact capUpd_getD_14 hmL j
    · have hmL : m ∈ legalMovesL b w roll := by
        have h1 : m ∈ legalMovesL (g.posOf 1) (g.posOf (1 - 1)) roll := hm
        rwa [hb, show (1 - 1 : Nat) = 0 from rfl, hw] at h1
      have happ := apply_move_positions_one hpos m
      rcases hq2 with rfl | rfl
      · have h2 : (g.apply_move 1 m).1.posOf 0 = capUpd w m := by
          simp [RoyalGameOfUr.posOf, happ]
        rw [h2, hw]
        exact capUpd_getD_14 hmL j
      · have h2 : (g.apply_move 1 m).1.posOf 1 = ownUpd b m := by
          simp [RoyalGameOfUr.posOf, happ]
        rw [h2, hb]
        exact ownUpd_getD_14 hmL hne j

theorem c8_winner_and_bearoff_only_witness :
    (RoyalGameOfUr.init.is_winner 0 = true ↔ ∀ x ∈ RoyalGameOfUr.init.posOf 0, x = 14) ∧
    ((⟨none, 3, true, none⟩ : Move) ∈ RoyalGameOfUr.init.legal_moves 0 4 →
      (3 : Int) ≠ 14 →
      ∀ q j, q < 2 →
        (((RoyalGameOfUr.init.apply_move 0 ⟨none, 3, true, none⟩).1.posOf q).getD j 0 = 14 ↔
          (RoyalGameOfUr.init.posOf q).getD j 0 = 14)) :=
  c8_winner_and_bearoff_only RoyalGameOfUr.init 0 4 ⟨none, 3, true, none⟩
    (by decide) (by decide) (by decide)

/-- Claim C9: roll_dice always yields a value in [0, 4], and a roll of
zero always yields zero legal moves. -/
theorem c9_dice_range_and_zero_roll (draws : Fin 4 → Fin 2) (g : RoyalGameOfUr) (p : Nat) :
    0 ≤ roll_dice draws ∧ roll_dice draws ≤ 4 ∧ g.legal_moves p 0 = [] := by
  refine ⟨?_, ?_, ?_⟩
  · revert draws
    decide
  · revert draws
    decide
  · unfold RoyalGameOfUr.legal_moves legalMovesL
    rw [if_pos rfl]

/-- Claim C10: an entry move (piece reference none) with at least one
off-board piece always places the lowest-indexed off-board piece at the
destination. -/
theorem c10_entry_lowest_index (g : RoyalGameOfUr) (p : Nat) (m : Move)
    (hp : p < 2) (hlen : g.positions.length = 2)
    (hpiece : m.piece = none) (hoff : (-1 : Int) ∈ g.posOf p) :
    (g.posOf p).findIdx (fun x => x == (-1 : Int)) < (g.posOf p).length ∧
    (g.posOf p).getD ((g.posOf p).findIdx (fun x => x == (-1 : Int))) 0 = -1 ∧
    (∀ k, k < (g.posOf p).findIdx (fun x => x == (-1 : Int)) →
      (g.posOf p).getD k 0 ≠ -1) ∧
    (g.apply_move p m).1.posOf p =
      (g.posOf p).set ((g.posOf p).findIdx (fun x => x == (-1 : Int))) m.newpos := by
  have hex : ∃ x ∈ g.posOf p, (fun x => x == (-1 : Int)) x = true := ⟨-1, hoff, by simp⟩
  obtain ⟨hlt, hat, hbefore⟩ := findIdx_spec _ _ hex
  refine ⟨hlt, by simpa using hat, ?_, ?_⟩
  · intro k hk
    have h1 := hbefore k hk
    simpa using h1
  · obtain ⟨w, b, hpos⟩ := List.length_eq_two.mp hlen
    have hp2 : p = 0 ∨ p = 1 := by omega
    rcases hp2 with rfl | rfl
    · have happ := apply_move_positions_zero hpos m
      have hw : g.posOf 0 = w := by simp [RoyalGameOfUr.posOf, hpos]
      have h2 : (g.apply_move 0 m).1.posOf 0 = ownUpd w m := by
        simp [RoyalGameOfUr.posOf, happ]
      rw [h2, hw]
      unfold ownUpd
      rw [hpiece]
    · have happ := apply_move_positions_one hpos m
      have hb : g.posOf 1 = b := by simp [RoyalGameOfUr.posOf, hpos]
      have h2 : (g.apply_move 1 m).1.posOf 1 = ownUpd b m := by
        simp [RoyalGameOfUr.posOf, happ]
      rw [h2, hb]
      unfold ownUpd
      rw [hpiece]

theorem c10_entry_lowest_index_witness :
    (c10WitnessGame.posOf 0).findIdx (fun x => x == (-1 : Int)) <
      (c10WitnessGame.posOf 0).length ∧
    (c10WitnessGame.posOf 0).getD
      ((c10WitnessGame.posOf 0).findIdx (fun x => x == (-1 : Int))) 0 = -1 ∧
    (∀ k, k < (c10WitnessGame.posOf 0).findIdx (fun x => x == (-1 : Int)) →
      (c10WitnessGame.posOf 0).getD k 0 ≠ -1) ∧
    (c10WitnessGame.apply_move 0 ⟨none, 5, false, none⟩).1.posOf 0 =
      (c10WitnessGame.posOf 0).set
        ((c10WitnessGame.posOf 0).findIdx (fun x => x == (-1 : Int))) 5 :=
  c10_entry_lowest_index c10WitnessGame 0 ⟨none, 5, false, none⟩
    (by decide) (by decide) (by decide) (by decide)
